import Mathlib

/-!
Verification of the build-tools promotion pipeline.

This development embeds, as Lean definitions, the target file resolver
(`pkg/file/file.go`), the CI provider detection loop (`pkg/ci/ci.go`) and the
promotion orchestrator / GitOps repository gateway, and proves the stated
properties about them.

File names and other Go strings are modelled as lists of characters
(`GoString`); Go byte-wise string operations become the corresponding list
operations.  A directory listing is modelled by the list of names of its
entries (the only field of `os.FileInfo` the resolver inspects is `Name()`).
-/

namespace BuildTools

/-- Go strings, modelled byte-for-byte as lists of characters. -/
abbrev GoString := List Char

/-- Go `strings.HasSuffix(s, sfx)`: the Boolean test that `sfx` is a suffix
of `s`. -/
def hasSuffix (s sfx : GoString) : Bool := decide (sfx <:+ s)

/-- Go `strings.Contains(s, "-")`: the one-character pattern `"-"` occurs in
`s` exactly when the character `'-'` is an element of `s`. -/
def containsDash (s : GoString) : Bool := decide ('-' ∈ s)

/-- Go `strings.TrimSuffix(s, sfx)`: removes the trailing `sfx` when present,
otherwise returns `s` unchanged. -/
def trimSuffix (s sfx : GoString) : GoString :=
  if sfx <:+ s then s.take (s.length - sfx.length) else s

/-- Go `fmt.Sprintf("-%s%s", target, suffix)` from `filesForTarget`. -/
def targetSuffix (target sfx : GoString) : GoString := '-' :: (target ++ sfx)

/-- Go `fmt.Sprintf("%s-%s%s", strings.TrimSuffix(k, suffix), target, suffix)`:
the hypothetical override name computed for a bare default name `k`. -/
def overrideName (k target sfx : GoString) : GoString :=
  trimSuffix k sfx ++ '-' :: (target ++ sfx)

/-- The condition of the first loop of `filesForTarget`: the entry name ends
with the kind's suffix, and either ends with `-<target><suffix>` or contains
no `-` at all. -/
def candidate (target sfx name : GoString) : Bool :=
  hasSuffix name sfx &&
    (hasSuffix name (targetSuffix target sfx) || !containsDash name)

/-- The key set of the Go map `matching` built by the first loop of
`filesForTarget` (the value stored under a key is the `os.FileInfo` whose
`Name()` is that key, so the map is determined by its key set).  Duplicate
insertions of the same key overwrite, so the key set is duplicate-free; Go
map iteration order is arbitrary, so this canonical representative is used
together with theorems quantifying over all of its permutations. -/
def matchingNames (files : List GoString) (target sfx : GoString) : List GoString :=
  (files.filter (candidate target sfx)).dedup

/-- The condition of the second loop of `filesForTarget`: a key `k` of the
map `matching` (here `m`, its key set) is kept when it ends with
`-<target><suffix>`, or else (a bare default) when the hypothetical override
name is not a key of `matching`. -/
def keepForTarget (m : List GoString) (target sfx k : GoString) : Bool :=
  hasSuffix k (targetSuffix target sfx) || !(decide (overrideName k target sfx ∈ m))

/-- The second loop and final sort of `filesForTarget`, with the map
iteration order made explicit as the list `iter` (a permutation of the key
set `m`).  The Go code sorts the result with `sort.Slice` and the strict
byte-wise comparator `result[i].Name() < result[j].Name()`; on the
duplicate-free names produced here every correct sort yields the unique
`≤`-sorted arrangement, which `List.insertionSort (· ≤ ·)` computes. -/
def filesForTargetIter (iter m : List GoString) (target sfx : GoString) : List GoString :=
  List.insertionSort (· ≤ ·) (iter.filter (keepForTarget m target sfx))

/-- `filesForTarget` after a successful directory read, with the canonical
iteration order (the theorems below show the choice of order is irrelevant).
The `filetype` argument of the Go function is used only for log messages and
is omitted. -/
def filesForTarget (files : List GoString) (target sfx : GoString) : List GoString :=
  filesForTargetIter (matchingNames files target sfx) (matchingNames files target sfx)
    target sfx

/-- `filesForTarget` including the `ioutil.ReadDir` step: a failed read
(`err != nil`) is returned unchanged, otherwise the resolver runs on the
listing and the result is returned with a nil error. -/
def filesForTargetRead (ε : Type) (readResult : Except ε (List GoString))
    (target sfx : GoString) : Except ε (List GoString) :=
  match readResult with
  | .error e => .error e
  | .ok files => .ok (filesForTarget files target sfx)

/-- Go `FindFilesForTarget(dir, target)`: the resolver at kind suffix `.yaml`. -/
def FindFilesForTarget (ε : Type) (readResult : Except ε (List GoString))
    (target : GoString) : Except ε (List GoString) :=
  filesForTargetRead ε readResult target ".yaml".toList

/-- Go `FindScriptsForTarget(dir, target)`: the resolver at kind suffix `.sh`. -/
def FindScriptsForTarget (ε : Type) (readResult : Except ε (List GoString))
    (target : GoString) : Except ε (List GoString) :=
  filesForTargetRead ε readResult target ".sh".toList

/-! ### Helper lemmas about the resolver -/

theorem mem_matchingNames {files : List GoString} {target sfx x : GoString} :
    x ∈ matchingNames files target sfx ↔ x ∈ files ∧ candidate target sfx x = true := by
  simp [matchingNames, List.mem_dedup, List.mem_filter]

theorem nodup_matchingNames (files : List GoString) (target sfx : GoString) :
    (matchingNames files target sfx).Nodup :=
  List.nodup_dedup _

theorem hasSuffix_of_hasSuffix_targetSuffix {name target sfx : GoString}
    (h : hasSuffix name (targetSuffix target sfx) = true) : hasSuffix name sfx = true := by
  simp only [hasSuffix, decide_eq_true_iff] at h ⊢
  exact List.IsSuffix.trans ⟨'-' :: target, by simp [targetSuffix]⟩ h

theorem containsDash_of_hasSuffix_targetSuffix {name target sfx : GoString}
    (h : hasSuffix name (targetSuffix target sfx) = true) : containsDash name = true := by
  simp only [hasSuffix, decide_eq_true_iff] at h
  obtain ⟨t, rfl⟩ := h
  simp [containsDash, targetSuffix]

theorem candidate_of_hasSuffix_targetSuffix {name target sfx : GoString}
    (h : hasSuffix name (targetSuffix target sfx) = true) :
    candidate target sfx name = true := by
  simp [candidate, hasSuffix_of_hasSuffix_targetSuffix h, h]

theorem mem_filesForTargetIter {iter m : List GoString} {target sfx x : GoString} :
    x ∈ filesForTargetIter iter m target sfx ↔
      x ∈ iter ∧ keepForTarget m target sfx x = true := by
  unfold filesForTargetIter
  rw [(List.perm_insertionSort _ _).mem_iff, List.mem_filter]

theorem mem_filesForTarget {files : List GoString} {target sfx x : GoString} :
    x ∈ filesForTarget files target sfx ↔
      x ∈ matchingNames files target sfx ∧
        keepForTarget (matchingNames files target sfx) target sfx x = true := by
  unfold filesForTarget
  exact mem_filesForTargetIter

theorem filesForTargetIter_eq_of_perm {files iter : List GoString} {target sfx : GoString}
    (h : iter.Perm (matchingNames files target sfx)) :
    filesForTargetIter iter (matchingNames files target sfx) target sfx =
      filesForTarget files target sfx := by
  unfold filesForTarget filesForTargetIter
  apply List.eq_of_perm_of_sorted (r := (· ≤ ·))
  · exact (List.perm_insertionSort _ _).trans
      ((h.filter _).trans (List.perm_insertionSort _ _).symm)
  · exact List.sorted_insertionSort _ _
  · exact List.sorted_insertionSort _ _

/-! ### Claims about the target file resolver -/

/-- C2: `filesForTarget` includes every scanned entry ending in
`-<target><suffix>` unconditionally, and includes a bare default name
(no dash, kind suffix) if and only if its hypothetical override name is not
among the scanned candidates. -/
theorem resolver_override_and_default (files : List GoString) (target sfx : GoString) :
    (∀ name ∈ files, hasSuffix name (targetSuffix target sfx) = true →
      name ∈ filesForTarget files target sfx) ∧
    (∀ name ∈ files, hasSuffix name sfx = true → containsDash name = false →
      (name ∈ filesForTarget files target sfx ↔
        overrideName name target sfx ∉ matchingNames files target sfx)) := by
  constructor
  · intro name hmem hov
    rw [mem_filesForTarget]
    refine ⟨mem_matchingNames.mpr ⟨hmem, candidate_of_hasSuffix_targetSuffix hov⟩, ?_⟩
    simp [keepForTarget, hov]
  · intro name hmem hsfx hdash
    have hcand : candidate target sfx name = true := by
      simp [candidate, hsfx, hdash]
    have hnotov : hasSuffix name (targetSuffix target sfx) = false := by
      cases h : hasSuffix name (targetSuffix target sfx) with
      | false => rfl
      | true =>
          exact absurd (containsDash_of_hasSuffix_targetSuffix h) (by simp [hdash])
    rw [mem_filesForTarget]
    have hm : name ∈ matchingNames files target sfx := mem_matchingNames.mpr ⟨hmem, hcand⟩
    simp [keepForTarget, hnotov, hm]

theorem resolver_override_and_default_witness :
    "a-prod.yaml".toList ∈ filesForTarget
      ["a.yaml".toList, "a-prod.yaml".toList, "b.yaml".toList]
      "prod".toList ".yaml".toList ∧
    ("a.yaml".toList ∈ filesForTarget
      ["a.yaml".toList, "a-prod.yaml".toList, "b.yaml".toList]
      "prod".toList ".yaml".toList ↔
      overrideName "a.yaml".toList "prod".toList ".yaml".toList ∉
        matchingNames ["a.yaml".toList, "a-prod.yaml".toList, "b.yaml".toList]
          "prod".toList ".yaml".toList) := by
  have h := resolver_override_and_default
    ["a.yaml".toList, "a-prod.yaml".toList, "b.yaml".toList] "prod".toList ".yaml".toList
  exact ⟨h.1 "a-prod.yaml".toList (by decide) (by decide),
    h.2 "a.yaml".toList (by decide) (by decide) (by decide)⟩

/-- C3: a file name containing a `-` that does not end with
`-<target><suffix>` is never returned by `filesForTarget`, even when no
corresponding bare default exists. -/
theorem resolver_excludes_other_targets (files : List GoString)
    (target sfx name : GoString)
    (hdash : containsDash name = true)
    (hnotov : hasSuffix name (targetSuffix target sfx) = false) :
    name ∉ filesForTarget files target sfx := by
  intro hmem
  rw [mem_filesForTarget, mem_matchingNames] at hmem
  obtain ⟨⟨-, hcand⟩, -⟩ := hmem
  simp [candidate, hnotov, hdash] at hcand

theorem resolver_excludes_other_targets_witness :
    "x-other.yaml".toList ∉ filesForTarget ["x-other.yaml".toList]
      "mine".toList ".yaml".toList :=
  resolver_excludes_other_targets ["x-other.yaml".toList] "mine".toList ".yaml".toList
    "x-other.yaml".toList (by decide) (by decide)

/-- C7: the resolver is deterministic: for any two iteration orders of the
intermediate map's key set, the returned sequence is the same, and it is
sorted lexicographically by filename. -/
theorem resolver_deterministic (files : List GoString) (target sfx : GoString)
    (iter1 iter2 : List GoString)
    (h1 : iter1.Perm (matchingNames files target sfx))
    (h2 : iter2.Perm (matchingNames files target sfx)) :
    filesForTargetIter iter1 (matchingNames files target sfx) target sfx =
      filesForTargetIter iter2 (matchingNames files target sfx) target sfx ∧
    filesForTargetIter iter1 (matchingNames files target sfx) target sfx =
      filesForTarget files target sfx ∧
    List.Sorted (· ≤ ·) (filesForTarget files target sfx) := by
  refine ⟨?_, filesForTargetIter_eq_of_perm h1, List.sorted_insertionSort _ _⟩
  rw [filesForTargetIter_eq_of_perm h1, filesForTargetIter_eq_of_perm h2]

theorem resolver_deterministic_witness :
    filesForTargetIter
      ["a.yaml".toList, "a-prod.yaml".toList, "b.yaml".toList]
      (matchingNames ["a.yaml".toList, "a-prod.yaml".toList, "b.yaml".toList]
        "prod".toList ".yaml".toList) "prod".toList ".yaml".toList =
    filesForTargetIter
      ["b.yaml".toList, "a-prod.yaml".toList, "a.yaml".toList]
      (matchingNames ["a.yaml".toList, "a-prod.yaml".toList, "b.yaml".toList]
        "prod".toList ".yaml".toList) "prod".toList ".yaml".toList ∧
    List.Sorted (· ≤ ·) (filesForTarget
      ["a.yaml".toList, "a-prod.yaml".toList, "b.yaml".toList]
      "prod".toList ".yaml".toList) := by
  have h := resolver_deterministic
    ["a.yaml".toList, "a-prod.yaml".toList, "b.yaml".toList] "prod".toList ".yaml".toList
    ["a.yaml".toList, "a-prod.yaml".toList, "b.yaml".toList]
    ["b.yaml".toList, "a-prod.yaml".toList, "a.yaml".toList]
    (by decide) (by decide)
  exact ⟨h.1, h.2.2⟩

/-- C8: `filesForTarget` fails exactly when the directory read fails, and the
read error is propagated unchanged; a readable directory always yields a
success, in particular an empty listing yields the empty list, not an
error. -/
theorem resolver_error_iff_read_error (ε : Type) (readResult : Except ε (List GoString))
    (target sfx : GoString) :
    (∀ e : ε, filesForTargetRead ε readResult target sfx = .error e ↔
      readResult = .error e) ∧
    (∀ files, readResult = .ok files →
      filesForTargetRead ε readResult target sfx =
        .ok (filesForTarget files target sfx)) ∧
    filesForTargetRead ε (.ok []) target sfx = .ok [] := by
  refine ⟨?_, ?_, rfl⟩
  · intro e
    cases readResult <;> simp [filesForTargetRead]
  · rintro files rfl
    rfl

theorem resolver_error_iff_read_error_witness :
    (filesForTargetRead Unit (.error ()) "prod".toList ".yaml".toList =
      .error () ↔ (Except.error () : Except Unit (List GoString)) = .error ()) ∧
    filesForTargetRead Unit (.ok ["a.yaml".toList]) "prod".toList ".yaml".toList =
      .ok (filesForTarget ["a.yaml".toList] "prod".toList ".yaml".toList) := by
  have h := resolver_error_iff_read_error Unit (.error ()) "prod".toList ".yaml".toList
  have h2 := resolver_error_iff_read_error Unit (.ok ["a.yaml".toList])
    "prod".toList ".yaml".toList
  exact ⟨h.1 (), h2.2.1 ["a.yaml".toList] rfl⟩

/-- C10: every name returned by `filesForTarget` ends with the kind's suffix,
and the returned names are pairwise distinct. -/
theorem resolver_suffix_and_nodup (files : List GoString) (target sfx : GoString) :
    (∀ name ∈ filesForTarget files target sfx, hasSuffix name sfx = true) ∧
    (filesForTarget files target sfx).Nodup := by
  constructor
  · intro name hmem
    rw [mem_filesForTarget, mem_matchingNames] at hmem
    obtain ⟨⟨-, hcand⟩, -⟩ := hmem
    simp only [candidate, Bool.and_eq_true] at hcand
    exact hcand.1
  · unfold filesForTarget filesForTargetIter
    exact (List.perm_insertionSort _ _).symm.nodup
      ((nodup_matchingNames files target sfx).filter _)

theorem resolver_suffix_and_nodup_witness :
    hasSuffix "a-prod.yaml".toList ".yaml".toList = true ∧
    (filesForTarget ["a.yaml".toList, "a-prod.yaml".toList, "b.yaml".toList]
      "prod".toList ".yaml".toList).Nodup := by
  have h := resolver_suffix_and_nodup
    ["a.yaml".toList, "a-prod.yaml".toList, "b.yaml".toList] "prod".toList ".yaml".toList
  exact ⟨h.1 "a-prod.yaml".toList (by decide), h.2⟩

/-! ### CI provider detection (`pkg/ci/ci.go`) -/

/-- The concrete CI provider variants probed by `Identify`, in the order of
the Go slice `cis = []CI{&azure{}, &buildkite{}, &gitlab{}}`. -/
inductive Provider where
  | azure
  | buildkite
  | gitlab
deriving DecidableEq

/-- The Go slice `cis`. -/
def cis : List Provider := [.azure, .buildkite, .gitlab]

/-- The loop of Go `Identify`: walk the providers in order and return the
first whose `identify()` reports active.  The provider-specific `identify`
implementations probe the process environment; they are abstracted as the
function `active`. -/
def identifyFrom (active : Provider → Bool) : List Provider → Option Provider
  | [] => none
  | c :: rest => if active c then some c else identifyFrom active rest

/-- Go `ci.Identify()`: the loop over `cis`, returning `nil` (here `none`)
when no provider identifies itself. -/
def Identify (active : Provider → Bool) : Option Provider := identifyFrom active cis

theorem identifyFrom_eq_find (active : Provider → Bool) (l : List Provider) :
    identifyFrom active l = l.find? active := by
  induction l with
  | nil => rfl
  | cons c rest ih =>
      cases h : active c <;> simp [identifyFrom, List.find?_cons, h, ih]

/-- C9: `Identify` probes the fixed ordered provider list
[azure, buildkite, gitlab] and returns the first active one; when no
provider identifies itself it returns `none`. -/
theorem ci_identify_first_active (active : Provider → Bool) :
    Identify active =
      List.find? active [Provider.azure, Provider.buildkite, Provider.gitlab] ∧
    ((∀ c, active c = false) → Identify active = none) := by
  refine ⟨identifyFrom_eq_find active cis, ?_⟩
  intro h
  simp [Identify, cis, identifyFrom, h]

theorem ci_identify_first_active_witness :
    Identify (fun c => decide (c = Provider.buildkite)) = some Provider.buildkite ∧
    Identify (fun _ => false) = none := by
  have h1 := ci_identify_first_active (fun c => decide (c = Provider.buildkite))
  have h2 := ci_identify_first_active (fun _ => false)
  exact ⟨h1.1.trans (by decide), h2.2 (fun c => rfl)⟩

/-! ### GitOps repository gateway and promotion orchestrator

The Go implementations of `DoPromote` and of the gateway `Promote` are not
among the sources of this development (only their tests are), so they are
modelled from the spec (§4.3 and §4.4). -/

/-- The committed file tree of the GitOps repository: an association list
from file path to file content, updated in place. -/
abbrev Tree := List (GoString × GoString)

/-- Look up the content stored at a path. -/
def lookupTree : Tree → GoString → Option GoString
  | [], _ => none
  | (q, d) :: rest, p => if q = p then some d else lookupTree rest p

/-- Write one file: overwrite the first binding of the path when present,
otherwise append a new binding. -/
def setFile : Tree → GoString → GoString → Tree
  | [], p, c => [(p, c)]
  | (q, d) :: rest, p, c =>
      if q = p then (q, c) :: rest else (q, d) :: setFile rest p c

/-- Modelled from the spec: step 4 of the gateway writes every entry of the
DescriptorSet (name, content) into the destination directory, overwriting
existing files. -/
def writeAll (t : Tree) (dest : GoString) (ds : List (GoString × GoString)) : Tree :=
  ds.foldl (fun acc entry => setFile acc (dest ++ '/' :: entry.1) entry.2) t

/-- Modelled from the spec: the normalized build name is lowercase with
every `_` rewritten to `-` (the CI provider `BuildName` implementation used
by `DoPromote` is not among the sources; only its tests are). -/
def normalizedBuildName (raw : GoString) : GoString :=
  (raw.map Char.toLower).map (fun c => if c = '_' then '-' else c)

/-- Modelled from the spec: step 3 of the gateway computes the destination
subdirectory `<configured path, default "">/<normalized build name>`. -/
def destinationPath (cfgPath raw : GoString) : GoString :=
  cfgPath ++ '/' :: normalizedBuildName raw

/-- The externally visible side effects of one gateway invocation, in the
order they occur. -/
inductive GitEvent where
  | clone
  | auth
  | write
  | commit
  | push
deriving DecidableEq

/-- The gateway's result value: whether a commit was attempted and whether
it was pushed. -/
structure CommitOutcome where
  attempted : Bool
  pushed : Bool
deriving DecidableEq

/-- Modelled from the spec: the GitOps repository gateway `Promote` (§4.3).
Steps 1 (clone), 2 (authenticate), 4 (write) and 6/7 (commit/push) are each
a potential failure point, abstracted by the Boolean flags; step 3 is the
pure destination-path computation and step 5 is the diff of the staged tree
against HEAD.  The returned trace lists the side effects that occurred, and
the returned tree is the remote repository state afterwards: only a
successful push changes it. -/
def promoteGateway (remote : Tree) (cloneOk authOk writeOk commitOk pushOk : Bool)
    (dest : GoString) (ds : List (GoString × GoString)) :
    List GitEvent × Except Unit CommitOutcome × Tree :=
  if !cloneOk then ([], .error (), remote)
  else if !authOk then ([.clone], .error (), remote)
  else if !writeOk then ([.clone, .auth], .error (), remote)
  else
    let staged := writeAll remote dest ds
    if staged = remote then ([.clone, .auth, .write], .ok ⟨false, false⟩, remote)
    else if !commitOk then ([.clone, .auth, .write], .error (), remote)
    else if !pushOk then ([.clone, .auth, .write, .commit], .error (), remote)
    else ([.clone, .auth, .write, .commit, .push], .ok ⟨true, true⟩, staged)

/-- Per-target GitOps configuration. -/
structure GitOpsEndpoint where
  url : GoString
  path : GoString
deriving DecidableEq

/-- The `gitops` section of the configuration: target name → endpoint. -/
structure Config where
  gitops : List (GoString × GitOpsEndpoint)
deriving DecidableEq

/-- The parsed CLI arguments that drive the orchestrator's control flow. -/
structure Args where
  helpOrVersion : Bool
  target : GoString
deriving DecidableEq

/-- Look up the endpoint configured for a target name. -/
def lookupEndpoint : List (GoString × GitOpsEndpoint) → GoString → Option GitOpsEndpoint
  | [], _ => none
  | (k, ep) :: rest, t => if k = t then some ep else lookupEndpoint rest t

/-- Modelled from the spec: the promotion orchestrator `DoPromote`
(§4.4 state machine).  Argument parsing, config loading, descriptor
resolution and the gateway steps are the collaborators' outcomes, passed as
`Except` values and Boolean flags; the result is the exit code, the trace of
gateway side effects, and the remote repository state afterwards. -/
def DoPromote (parseResult : Except Unit Args) (configResult : Except Unit Config)
    (ciCommit ciBranch buildNameRaw : GoString)
    (descriptors : Except Unit (List (GoString × GoString)))
    (cloneOk authOk writeOk commitOk pushOk : Bool) (remote : Tree) :
    Int × List GitEvent × Tree :=
  match parseResult with
  | .error _ => (-1, [], remote)
  | .ok args =>
    if args.helpOrVersion then (0, [], remote)
    else
      match configResult with
      | .error _ => (-1, [], remote)
      | .ok cfg =>
        match lookupEndpoint cfg.gitops args.target with
        | none => (-2, [], remote)
        | some ep =>
          if ciCommit.isEmpty || ciBranch.isEmpty then (-3, [], remote)
          else
            match descriptors with
            | .error _ => (-4, [], remote)
            | .ok ds =>
              if ds.isEmpty then (-4, [], remote)
              else
                let r := promoteGateway remote cloneOk authOk writeOk commitOk pushOk
                  (destinationPath ep.path buildNameRaw) ds
                match r.2.1 with
                | .error _ => (-4, r.1, r.2.2)
                | .ok _ => (0, r.1, r.2.2)

/-! ### Helper lemmas about tree writes -/

theorem lookupTree_setFile_same (t : Tree) (p c : GoString) :
    lookupTree (setFile t p c) p = some c := by
  induction t with
  | nil => simp [setFile, lookupTree]
  | cons hd rest ih =>
      obtain ⟨q, d⟩ := hd
      by_cases h : q = p <;> simp [setFile, lookupTree, h, ih]

theorem setFile_of_lookupTree_eq {t : Tree} {p c : GoString}
    (h : lookupTree t p = some c) : setFile t p c = t := by
  induction t with
  | nil => simp [lookupTree] at h
  | cons hd rest ih =>
      obtain ⟨q, d⟩ := hd
      by_cases hq : q = p
      · simp [lookupTree, hq] at h
        simp [setFile, hq, h]
      · simp [lookupTree, hq] at h
        simp [setFile, hq, ih h]

theorem lookupTree_setFile_other {t : Tree} {p q c : GoString} (h : q ≠ p) :
    lookupTree (setFile t p c) q = lookupTree t q := by
  induction t with
  | nil => simp [setFile, lookupTree, Ne.symm h]
  | cons hd rest ih =>
      obtain ⟨x, d⟩ := hd
      by_cases hx : x = p
      · subst hx
        simp [setFile, lookupTree, Ne.symm h]
      · simp only [setFile, hx, if_false, lookupTree]
        by_cases hq : x = q <;> simp [hq, ih]

theorem lookupTree_writeAll_not_mem {t : Tree} {dest p : GoString}
    {ds : List (GoString × GoString)}
    (h : ∀ entry ∈ ds, dest ++ '/' :: entry.1 ≠ p) :
    lookupTree (writeAll t dest ds) p = lookupTree t p := by
  induction ds generalizing t with
  | nil => rfl
  | cons e rest ih =>
      show lookupTree (writeAll (setFile t (dest ++ '/' :: e.1) e.2) dest rest) p = _
      rw [ih (fun x hx => h x (List.mem_cons_of_mem e hx))]
      exact lookupTree_setFile_other (Ne.symm (h e (List.mem_cons_self e rest)))

theorem writeAll_idem {t : Tree} {dest : GoString} {ds : List (GoString × GoString)}
    (h : (ds.map Prod.fst).Nodup) :
    writeAll (writeAll t dest ds) dest ds = writeAll t dest ds := by
  induction ds generalizing t with
  | nil => rfl
  | cons e rest ih =>
      obtain ⟨hnot, hrest⟩ := List.nodup_cons.mp h
      have hlook : lookupTree (writeAll (setFile t (dest ++ '/' :: e.1) e.2) dest rest)
          (dest ++ '/' :: e.1) = some e.2 := by
        rw [lookupTree_writeAll_not_mem (fun x hx hh => hnot (by
          have h1 : ('/' :: x.1 : GoString) = '/' :: e.1 := List.append_cancel_left hh
          have h2 : x.1 = e.1 := by injection h1
          exact h2 ▸ List.mem_map_of_mem Prod.fst hx))]
        exact lookupTree_setFile_same _ _ _
      show writeAll (setFile (writeAll (setFile t (dest ++ '/' :: e.1) e.2) dest rest)
          (dest ++ '/' :: e.1) e.2) dest rest =
        writeAll (setFile t (dest ++ '/' :: e.1) e.2) dest rest
      rw [setFile_of_lookupTree_eq hlook]
      exact ih hrest

/-! ### Claims about the orchestrator and the gateway -/

/-- C1: `DoPromote` terminates with exactly one of the five exit codes
0, -1, -2, -3, -4, classified by failure kind: 0 for success, successful
no-op, help or version; -1 for an argument or config parse error; -2 when
the target is not a key of the gitops section; -3 when the CI metadata has
an empty commit or branch; -4 for any descriptor-resolution or gateway
(filesystem, credential, git-transport) failure. -/
theorem orchestrator_exit_codes (pr : Except Unit Args) (cr : Except Unit Config)
    (cc cb bn : GoString) (ds : Except Unit (List (GoString × GoString)))
    (c a w co pu : Bool) (t : Tree) :
    ((DoPromote pr cr cc cb bn ds c a w co pu t).1 = 0 ∨
      (DoPromote pr cr cc cb bn ds c a w co pu t).1 = -1 ∨
      (DoPromote pr cr cc cb bn ds c a w co pu t).1 = -2 ∨
      (DoPromote pr cr cc cb bn ds c a w co pu t).1 = -3 ∨
      (DoPromote pr cr cc cb bn ds c a w co pu t).1 = -4) ∧
    (pr = .error () → (DoPromote pr cr cc cb bn ds c a w co pu t).1 = -1) ∧
    (∀ args, pr = .ok args → args.helpOrVersion = true →
      (DoPromote pr cr cc cb bn ds c a w co pu t).1 = 0) ∧
    (∀ args, pr = .ok args → args.helpOrVersion = false → cr = .error () →
      (DoPromote pr cr cc cb bn ds c a w co pu t).1 = -1) ∧
    (∀ args cfg, pr = .ok args → args.helpOrVersion = false → cr = .ok cfg →
      lookupEndpoint cfg.gitops args.target = none →
      (DoPromote pr cr cc cb bn ds c a w co pu t).1 = -2) ∧
    (∀ args cfg ep, pr = .ok args → args.helpOrVersion = false → cr = .ok cfg →
      lookupEndpoint cfg.gitops args.target = some ep →
      (cc.isEmpty || cb.isEmpty) = true →
      (DoPromote pr cr cc cb bn ds c a w co pu t).1 = -3) ∧
    (∀ args cfg ep, pr = .ok args → args.helpOrVersion = false → cr = .ok cfg →
      lookupEndpoint cfg.gitops args.target = some ep →
      (cc.isEmpty || cb.isEmpty) = false → ds = .error () →
      (DoPromote pr cr cc cb bn ds c a w co pu t).1 = -4) ∧
    (∀ args cfg ep dsl, pr = .ok args → args.helpOrVersion = false → cr = .ok cfg →
      lookupEndpoint cfg.gitops args.target = some ep →
      (cc.isEmpty || cb.isEmpty) = false → ds = .ok dsl → dsl.isEmpty = true →
      (DoPromote pr cr cc cb bn ds c a w co pu t).1 = -4) ∧
    (∀ args cfg ep dsl, pr = .ok args → args.helpOrVersion = false → cr = .ok cfg →
      lookupEndpoint cfg.gitops args.target = some ep →
      (cc.isEmpty || cb.isEmpty) = false → ds = .ok dsl → dsl.isEmpty = false →
      (promoteGateway t c a w co pu (destinationPath ep.path bn) dsl).2.1 =
        .error () →
      (DoPromote pr cr cc cb bn ds c a w co pu t).1 = -4) ∧
    (∀ args cfg ep dsl o, pr = .ok args → args.helpOrVersion = false → cr = .ok cfg →
      lookupEndpoint cfg.gitops args.target = some ep →
      (cc.isEmpty || cb.isEmpty) = false → ds = .ok dsl → dsl.isEmpty = false →
      (promoteGateway t c a w co pu (destinationPath ep.path bn) dsl).2.1 = .ok o →
      (DoPromote pr cr cc cb bn ds c a w co pu t).1 = 0) := by
  refine ⟨?_, ?_, ?_, ?_, ?_, ?_, ?_, ?_, ?_, ?_⟩
  · rcases pr with u | args
    · simp [DoPromote]
    · cases hh : args.helpOrVersion
      · rcases cr with u | cfg
        · simp [DoPromote, hh]
        · cases hlk : lookupEndpoint cfg.gitops args.target with
          | none => simp [DoPromote, hh, hlk]
          | some ep =>
              cases hci : (cc.isEmpty || cb.isEmpty)
              · rcases ds with u | dsl
                · simp [DoPromote, hh, hlk, hci]
                · cases hde : dsl.isEmpty
                  · cases hgw : (promoteGateway t c a w co pu
                        (destinationPath ep.path bn) dsl).2.1
                    · simp [DoPromote, hh, hlk, hci, hde, hgw]
                    · simp [DoPromote, hh, hlk, hci, hde, hgw]
                  · simp [DoPromote, hh, hlk, hci, hde]
              · simp [DoPromote, hh, hlk, hci]
      · simp [DoPromote, hh]
  · rintro rfl
    rfl
  · rintro args rfl hh
    simp [DoPromote, hh]
  · rintro args rfl hh rfl
    simp [DoPromote, hh]
  · rintro args cfg rfl hh rfl hlk
    simp [DoPromote, hh, hlk]
  · rintro args cfg ep rfl hh rfl hlk hci
    simp [DoPromote, hh, hlk, hci]
  · rintro args cfg ep rfl hh rfl hlk hci rfl
    simp [DoPromote, hh, hlk, hci]
  · rintro args cfg ep dsl rfl hh rfl hlk hci rfl hde
    simp [DoPromote, hh, hlk, hci, hde]
  · rintro args cfg ep dsl rfl hh rfl hlk hci rfl hde hgw
    simp [DoPromote, hh, hlk, hci, hde, hgw]
  · rintro args cfg ep dsl o rfl hh rfl hlk hci rfl hde hgw
    simp [DoPromote, hh, hlk, hci, hde, hgw]

theorem orchestrator_exit_codes_witness :
    (DoPromote (.ok ⟨false, "dummy".toList⟩) (.ok ⟨[]⟩) "abc123".toList
      "master".toList "dummy".toList (.ok []) true true true true true []).1 = -2 ∧
    (DoPromote (.ok ⟨false, "dummy".toList⟩)
      (.ok ⟨[("dummy".toList, ⟨"url".toList, "".toList⟩)]⟩) "".toList
      "master".toList "dummy".toList (.ok []) true true true true true []).1 = -3 := by
  have h1 := orchestrator_exit_codes (.ok ⟨false, "dummy".toList⟩) (.ok ⟨[]⟩)
    "abc123".toList "master".toList "dummy".toList (.ok []) true true true true true []
  have h2 := orchestrator_exit_codes (.ok ⟨false, "dummy".toList⟩)
    (.ok ⟨[("dummy".toList, ⟨"url".toList, "".toList⟩)]⟩) "".toList
    "master".toList "dummy".toList (.ok []) true true true true true []
  refine ⟨h1.2.2.2.2.1 ⟨false, "dummy".toList⟩ ⟨[]⟩ rfl rfl rfl (by decide), ?_⟩
  exact h2.2.2.2.2.2.1 ⟨false, "dummy".toList⟩
    ⟨[("dummy".toList, ⟨"url".toList, "".toList⟩)]⟩
    ⟨"url".toList, "".toList⟩ rfl rfl rfl (by decide) (by decide)

/-- C5: gateway side effects are strictly ordered — the trace is always an
initial segment of clone, auth, write, commit, push; a push happens only
after a successful commit, a commit only after a successful write; any
failure during clone, authentication or writing (steps 1-4), and indeed any
failed invocation, leaves the remote repository unmodified; and when the
target is missing from the config the orchestrator performs no gateway side
effect at all. -/
theorem gateway_effect_order (t : Tree) (c a w co pu : Bool) (dest : GoString)
    (ds : List (GoString × GoString)) :
    ((promoteGateway t c a w co pu dest ds).1 = [] ∨
      (promoteGateway t c a w co pu dest ds).1 = [GitEvent.clone] ∨
      (promoteGateway t c a w co pu dest ds).1 = [GitEvent.clone, GitEvent.auth] ∨
      (promoteGateway t c a w co pu dest ds).1 =
        [GitEvent.clone, GitEvent.auth, GitEvent.write] ∨
      (promoteGateway t c a w co pu dest ds).1 =
        [GitEvent.clone, GitEvent.auth, GitEvent.write, GitEvent.commit] ∨
      (promoteGateway t c a w co pu dest ds).1 =
        [GitEvent.clone, GitEvent.auth, GitEvent.write, GitEvent.commit,
          GitEvent.push]) ∧
    (GitEvent.push ∈ (promoteGateway t c a w co pu dest ds).1 →
      GitEvent.commit ∈ (promoteGateway t c a w co pu dest ds).1 ∧
      (promoteGateway t c a w co pu dest ds).2.1 = .ok ⟨true, true⟩) ∧
    (GitEvent.commit ∈ (promoteGateway t c a w co pu dest ds).1 →
      GitEvent.write ∈ (promoteGateway t c a w co pu dest ds).1) ∧
    ((c = false ∨ a = false ∨ w = false) →
      (promoteGateway t c a w co pu dest ds).2.2 = t) ∧
    ((promoteGateway t c a w co pu dest ds).2.1 = .error () →
      (promoteGateway t c a w co pu dest ds).2.2 = t) ∧
    (∀ (pr : Except Unit Args) (cr : Except Unit Config) (cc cb bn : GoString)
      (dsx : Except Unit (List (GoString × GoString))) (args : Args) (cfg : Config),
      pr = .ok args → args.helpOrVersion = false → cr = .ok cfg →
      lookupEndpoint cfg.gitops args.target = none →
      DoPromote pr cr cc cb bn dsx c a w co pu t = (-2, [], t)) := by
  refine ⟨?_, ?_, ?_, ?_, ?_, ?_⟩
  · cases c <;> cases a <;> cases w <;>
      by_cases hst : writeAll t dest ds = t <;> cases co <;> cases pu <;>
      simp [promoteGateway, hst]
  · cases c <;> cases a <;> cases w <;>
      by_cases hst : writeAll t dest ds = t <;> cases co <;> cases pu <;>
      simp [promoteGateway, hst]
  · cases c <;> cases a <;> cases w <;>
      by_cases hst : writeAll t dest ds = t <;> cases co <;> cases pu <;>
      simp [promoteGateway, hst]
  · cases c <;> cases a <;> cases w <;>
      by_cases hst : writeAll t dest ds = t <;> cases co <;> cases pu <;>
      simp [promoteGateway, hst]
  · cases c <;> cases a <;> cases w <;>
      by_cases hst : writeAll t dest ds = t <;> cases co <;> cases pu <;>
      simp [promoteGateway, hst]
  · rintro pr cr cc cb bn dsx args cfg rfl hh rfl hlk
    simp [DoPromote, hh, hlk]

theorem gateway_effect_order_witness :
    (GitEvent.commit ∈ (promoteGateway [] true true true true true "d".toList
        [("f".toList, "x".toList)]).1 ∧
      (promoteGateway [] true true true true true "d".toList
        [("f".toList, "x".toList)]).2.1 = .ok ⟨true, true⟩) ∧
    (promoteGateway [("p".toList, "q".toList)] false true true true true "d".toList
      [("f".toList, "x".toList)]).2.2 = [("p".toList, "q".toList)] ∧
    DoPromote (.ok ⟨false, "dummy".toList⟩) (.ok ⟨[]⟩) "abc".toList "master".toList
      "dummy".toList (.ok []) true true true true true [] = (-2, [], []) := by
  have h1 := gateway_effect_order [] true true true true true "d".toList
    [("f".toList, "x".toList)]
  have h2 := gateway_effect_order [("p".toList, "q".toList)] false true true true true
    "d".toList [("f".toList, "x".toList)]
  exact ⟨h1.2.1 (by decide), h2.2.2.2.1 (Or.inl rfl),
    h1.2.2.2.2.2 _ _ "abc".toList "master".toList "dummy".toList (.ok [])
      ⟨false, "dummy".toList⟩ ⟨[]⟩ rfl rfl rfl (by decide)⟩

/-- C4: promotion is idempotent — when an invocation of `DoPromote` exits 0
leaving the remote tree `t1`, running it again against `t1` with the same
descriptor content again exits 0, performs no commit and no push, and leaves
the remote tree unchanged. -/
theorem promotion_idempotent (pr : Except Unit Args) (cr : Except Unit Config)
    (cc cb bn : GoString) (ds : Except Unit (List (GoString × GoString)))
    (c a w co pu : Bool) (t : Tree) (tr1 : List GitEvent) (t1 : Tree)
    (hnodup : ∀ dsl, ds = .ok dsl → (dsl.map Prod.fst).Nodup)
    (hrun : DoPromote pr cr cc cb bn ds c a w co pu t = (0, tr1, t1)) :
    ∃ tr2, DoPromote pr cr cc cb bn ds c a w co pu t1 = (0, tr2, t1) ∧
      GitEvent.commit ∉ tr2 ∧ GitEvent.push ∉ tr2 := by
  rcases pr with u | args
  · simp [DoPromote] at hrun
  · cases hh : args.helpOrVersion with
    | true =>
        simp [DoPromote, hh] at hrun
        obtain ⟨htr, ht1⟩ := hrun
        subst ht1
        exact ⟨[], by simp [DoPromote, hh], by simp, by simp⟩
    | false =>
        rcases cr with u | cfg
        · simp [DoPromote, hh] at hrun
        · cases hlk : lookupEndpoint cfg.gitops args.target with
          | none => simp [DoPromote, hh, hlk] at hrun
          | some ep =>
            cases hci : (cc.isEmpty || cb.isEmpty) with
            | true => simp [DoPromote, hh, hlk, hci] at hrun
            | false =>
              rcases ds with u | dsl
              · simp [DoPromote, hh, hlk, hci] at hrun
              · cases hde : dsl.isEmpty with
                | true => simp [DoPromote, hh, hlk, hci, hde] at hrun
                | false =>
                  have hnd := hnodup dsl rfl
                  cases hc : c with
                  | false =>
                      simp [DoPromote, hh, hlk, hci, hde, promoteGateway, hc] at hrun
                  | true =>
                  cases ha : a with
                  | false =>
                      simp [DoPromote, hh, hlk, hci, hde, promoteGateway, hc, ha] at hrun
                  | true =>
                  cases hw : w with
                  | false =>
                      simp [DoPromote, hh, hlk, hci, hde, promoteGateway, hc, ha, hw]
                        at hrun
                  | true =>
                  by_cases hst : writeAll t (destinationPath ep.path bn) dsl = t
                  · simp [DoPromote, hh, hlk, hci, hde, promoteGateway, hc, ha, hw, hst]
                      at hrun
                    obtain ⟨htr, ht1⟩ := hrun
                    subst ht1
                    exact ⟨[GitEvent.clone, GitEvent.auth, GitEvent.write],
                      by simp [DoPromote, hh, hlk, hci, hde, promoteGateway,
                        hc, ha, hw, hst],
                      by decide, by decide⟩
                  · cases hco : co with
                    | false =>
                        simp [DoPromote, hh, hlk, hci, hde, promoteGateway,
                          hc, ha, hw, hco, hst] at hrun
                    | true =>
                    cases hpu : pu with
                    | false =>
                        simp [DoPromote, hh, hlk, hci, hde, promoteGateway,
                          hc, ha, hw, hco, hpu, hst] at hrun
                    | true =>
                        simp [DoPromote, hh, hlk, hci, hde, promoteGateway,
                          hc, ha, hw, hco, hpu, hst] at hrun
                        obtain ⟨htr, ht1⟩ := hrun
                        subst ht1
                        refine ⟨[GitEvent.clone, GitEvent.auth, GitEvent.write], ?_,
                          by decide, by decide⟩
                        simp [DoPromote, hh, hlk, hci, hde, promoteGateway,
                          hc, ha, hw, hco, hpu, writeAll_idem hnd]

theorem promotion_idempotent_witness :
    ∃ tr2, DoPromote (.ok ⟨false, "dummy".toList⟩)
      (.ok ⟨[("dummy".toList, ⟨"url".toList, "p".toList⟩)]⟩) "abc123".toList
      "master".toList "dummy".toList (.ok [("descriptor.yaml".toList, "x".toList)])
      true true true true true [("p/dummy/descriptor.yaml".toList, "x".toList)] =
      (0, tr2, [("p/dummy/descriptor.yaml".toList, "x".toList)]) ∧
      GitEvent.commit ∉ tr2 ∧ GitEvent.push ∉ tr2 :=
  promotion_idempotent (.ok ⟨false, "dummy".toList⟩)
    (.ok ⟨[("dummy".toList, ⟨"url".toList, "p".toList⟩)]⟩) "abc123".toList
    "master".toList "dummy".toList (.ok [("descriptor.yaml".toList, "x".toList)])
    true true true true true []
    [GitEvent.clone, GitEvent.auth, GitEvent.write, GitEvent.commit, GitEvent.push]
    [("p/dummy/descriptor.yaml".toList, "x".toList)]
    (fun dsl h => by cases h; decide) (by decide)

/-- C6: the build name used for the destination path segment is the raw CI
build name normalized to lowercase with every `_` rewritten to `-`; in
particular raw `dummy_repo` yields segment `dummy-repo`, no `_` survives
normalization, and a successful promotion of raw name `dummy_repo` writes
under `<path>/dummy-repo/`. -/
theorem build_name_normalization :
    normalizedBuildName "dummy_repo".toList = "dummy-repo".toList ∧
    (∀ cfgPath raw, destinationPath cfgPath raw =
      cfgPath ++ '/' :: normalizedBuildName raw) ∧
    (∀ raw, '_' ∉ normalizedBuildName raw) ∧
    lookupTree (DoPromote (.ok ⟨false, "dummy".toList⟩)
      (.ok ⟨[("dummy".toList, ⟨"url".toList, "p".toList⟩)]⟩) "abc123".toList
      "master".toList "dummy_repo".toList
      (.ok [("descriptor.yaml".toList, "x".toList)]) true true true true true []).2.2
      "p/dummy-repo/descriptor.yaml".toList = some "x".toList := by
  refine ⟨by decide, fun _ _ => rfl, ?_, by decide⟩
  intro raw hmem
  simp only [normalizedBuildName, List.mem_map] at hmem
  obtain ⟨x, -, hx⟩ := hmem
  by_cases h : x = '_'
  · rw [if_pos h] at hx
    exact absurd hx (by decide)
  · rw [if_neg h] at hx
    exact h hx

theorem build_name_normalization_witness :
    '_' ∉ normalizedBuildName "dummy_repo".toList ∧
    destinationPath "p".toList "dummy_repo".toList =
      "p".toList ++ '/' :: normalizedBuildName "dummy_repo".toList :=
  ⟨build_name_normalization.2.2.1 "dummy_repo".toList,
    build_name_normalization.2.1 "p".toList "dummy_repo".toList⟩

end BuildTools
